import Mathlib

/-!
Shallow embedding of the Tic Tac Toe game engine from
`src/tic_tac_toe_frontend/src/App.js`.

A board cell holds `null`, the string `X`, or the string `O` in the source;
here a cell is `Option Mark`.  A board is the JS array `squares`, embedded as
a `List Cell`.  JS array indexing `squares[a]` yields `undefined` (falsy) out
of range, which `List.getD _ _ none` reproduces for natural indices; the
component state `currentMove` is a JS number that `jumpTo` can set to any
integer, so it is embedded as `Int` and `history[currentMove]` as `jsGet`,
returning `none` exactly where JS yields `undefined`.
-/

/-- The two player marks, the strings `X` and `O` in the source. -/
inductive Mark where
  | X : Mark
  | O : Mark
deriving DecidableEq, Repr

instance : Fintype Mark where
  elems := {Mark.X, Mark.O}
  complete := fun m => by cases m <;> decide

/-- One board cell: `null` / `X` / `O` in the source. -/
abbrev Cell := Option Mark

/-- A board snapshot: the 9-element JS array `squares`. -/
abbrev Board := List Cell

/-- JS indexing `arr[i]` for an integer index: `undefined` (here `none`)
when `i` is negative or past the end. -/
def jsGet (l : List Board) (i : Int) : Option Board :=
  if i < 0 then none else l.get? i.toNat

/-- JS `arr.slice(0, e)`: a negative `e` counts from the end of the array. -/
def sliceTo (l : List Board) (e : Int) : List Board :=
  if e < 0 then l.take (l.length + e).toNat else l.take e.toNat

/-- The 8 winning lines of `calculateWinner`, in source order:
rows, then columns, then the two diagonals. -/
def lines : List (Nat × Nat × Nat) :=
  [(0, 1, 2), (3, 4, 5), (6, 7, 8),
   (0, 3, 6), (1, 4, 7), (2, 5, 8),
   (0, 4, 8), (2, 4, 6)]

/-- The loop test of `calculateWinner`:
`squares[a] && squares[a] === squares[b] && squares[a] === squares[c]`. -/
def lineWins (squares : Board) (t : Nat × Nat × Nat) : Bool :=
  match squares.getD t.1 none with
  | none => false
  | some m => (squares.getD t.2.1 none == some m) && (squares.getD t.2.2 none == some m)

/-- `calculateWinner(squares)`: the first line whose three cells hold the
same non-null mark, returned with the occupying mark (`player`) and the
line, else `null`. -/
def calculateWinner (squares : Board) : Option (Mark × (Nat × Nat × Nat)) :=
  match lines.find? (fun t => lineWins squares t) with
  | some t =>
    match squares.getD t.1 none with
    | some m => some (m, t)
    | none => none
  | none => none

/-- The derived terminal status of a board, combining `winner`
(`result?.player`) and `isDraw = !winner && currentSquares.every(Boolean)`. -/
inductive TerminalResult where
  | none : TerminalResult
  | win : Mark → (Nat × Nat × Nat) → TerminalResult
  | draw : TerminalResult
deriving DecidableEq, Repr

/-- Evaluate the terminal status of one board, as the component derives it:
a winner from `calculateWinner`, else `Draw` iff every cell is non-null. -/
def evaluateTerminal (squares : Board) : TerminalResult :=
  match calculateWinner squares with
  | some (m, t) => TerminalResult.win m t
  | none =>
    if squares.all (fun c => c.isSome) then TerminalResult.draw else TerminalResult.none

/-- The component state: `history` and `currentMove` (`isAscending` is pure
presentation and carries no game semantics). -/
structure GameState where
  history : List Board
  currentMove : Int
deriving DecidableEq, Repr

/-- The initial state: `useState([Array(9).fill(null)])`, `useState(0)`. -/
def initialState : GameState :=
  { history := [List.replicate 9 none], currentMove := 0 }

/-- `xIsNext = currentMove % 2 === 0`. -/
def xIsNext (s : GameState) : Bool := s.currentMove % 2 == 0

/-- `currentSquares = history[currentMove]`; `none` models `undefined`. -/
def currentSquares (s : GameState) : Option Board := jsGet s.history s.currentMove

/-- `handlePlay(nextSquares)`: truncate history to `currentMove + 1`
snapshots, append the new board, and select the new last index. -/
def handlePlay (s : GameState) (nextSquares : Board) : GameState :=
  let nextHistory := sliceTo s.history (s.currentMove + 1) ++ [nextSquares]
  { history := nextHistory, currentMove := (nextHistory.length : Int) - 1 }

/-- `handleSquareClick(index)`: no-op guard `if (winner || currentSquares[index]) return;`,
else clone the board, write the current turn mark at `index`, and play it.
The result is `none` exactly when the JS code would fault on an
`undefined` active board (out-of-range `currentMove`). -/
def handleSquareClick (s : GameState) (index : Nat) : Option GameState :=
  match currentSquares s with
  | none => none
  | some sq =>
    if (calculateWinner sq).isSome || (sq.getD index none).isSome then
      some s
    else
      some (handlePlay s (sq.set index (some (if xIsNext s then Mark.X else Mark.O))))

/-- `jumpTo(move)`: set `currentMove`, nothing else. -/
def jumpTo (s : GameState) (move : Int) : GameState :=
  { history := s.history, currentMove := move }

/-- `resetGame()`: fresh singleton history and `currentMove = 0`. -/
def resetGame (_ : GameState) : GameState := initialState

/-- The terminal status the component derives for the active board
(`result` / `isDraw`), `none` when the active board is `undefined`. -/
def terminalStatus (s : GameState) : Option TerminalResult :=
  (currentSquares s).map evaluateTerminal

/-- Run a list of square clicks from the initial state; a faulting click
(`none`) aborts the run. -/
def playAll (moves : List Nat) : Option GameState :=
  moves.foldl (fun acc i => acc.bind fun s => handleSquareClick s i) (some initialState)

/-- A board position contains a completed line `t`: all three of its cells
hold the same non-empty mark. -/
def winningTripleSpec (b : Board) (t : Nat × Nat × Nat) : Prop :=
  ∃ m : Mark, b.getD t.1 none = some m ∧ b.getD t.2.1 none = some m ∧
    b.getD t.2.2 none = some m

lemma lineWins_iff (b : Board) (t : Nat × Nat × Nat) :
    lineWins b t = true ↔ winningTripleSpec b t := by
  unfold lineWins winningTripleSpec
  cases h : b.getD t.1 none with
  | none =>
    simp only [Bool.false_eq_true, false_iff]
    rintro ⟨m, hm, _, _⟩
    simp [h] at hm
  | some m =>
    simp only [Bool.and_eq_true, beq_iff_eq]
    constructor
    · rintro ⟨h1, h2⟩
      exact ⟨m, rfl, h1, h2⟩
    · rintro ⟨m', hm', h1, h2⟩
      cases hm'
      exact ⟨h1, h2⟩

instance (b : Board) (t : Nat × Nat × Nat) : Decidable (winningTripleSpec b t) :=
  decidable_of_iff (lineWins b t = true) (lineWins_iff b t)

lemma find?_eq_get_of_first {α : Type} (p : α → Bool) (l : List α) :
    ∀ (i : Nat) (hi : i < l.length),
      p (l.get ⟨i, hi⟩) = true →
      (∀ j (hj : j < l.length), j < i → p (l.get ⟨j, hj⟩) = false) →
      l.find? p = some (l.get ⟨i, hi⟩) := by
  induction l with
  | nil => intro i hi; simp at hi
  | cons a tl ih =>
    intro i hi hp hmin
    cases i with
    | zero =>
      exact List.find?_cons_of_pos _ hp
    | succ n =>
      have ha : p a = false := hmin 0 (by simp) (by omega)
      rw [List.find?_cons_of_neg _ (by simp [ha])]
      exact ih n (by simpa using hi) hp
        (fun j hj hji => hmin (j + 1) (by simpa using hj) (by omega))

theorem calculateWinner_first_triple (b : Board) (i : Nat) (hi : i < lines.length)
    (hw : winningTripleSpec b (lines.get ⟨i, hi⟩))
    (hfirst : ∀ j (hj : j < lines.length), j < i → ¬ winningTripleSpec b (lines.get ⟨j, hj⟩)) :
    lines = [(0, 1, 2), (3, 4, 5), (6, 7, 8), (0, 3, 6), (1, 4, 7), (2, 5, 8),
      (0, 4, 8), (2, 4, 6)] ∧
    ∃ m : Mark, b.getD (lines.get ⟨i, hi⟩).1 none = some m ∧
      calculateWinner b = some (m, lines.get ⟨i, hi⟩) := by
  refine ⟨rfl, ?_⟩
  obtain ⟨m, h1, h2, h3⟩ := hw
  have hfind : lines.find? (fun t => lineWins b t) = some (lines.get ⟨i, hi⟩) :=
    find?_eq_get_of_first _ lines i hi ((lineWins_iff _ _).mpr ⟨m, h1, h2, h3⟩)
      (fun j hj hji => by
        cases hlw : lineWins b (lines.get ⟨j, hj⟩)
        · rfl
        · exact absurd ((lineWins_iff _ _).mp hlw) (hfirst j hj hji))
  refine ⟨m, h1, ?_⟩
  unfold calculateWinner
  rw [hfind]
  show (match List.getD b (lines.get ⟨i, hi⟩).1 none with
    | some m => some (m, lines.get ⟨i, hi⟩)
    | none => none) = some (m, lines.get ⟨i, hi⟩)
  rw [h1]

theorem calculateWinner_first_triple_witness :
    lines = [(0, 1, 2), (3, 4, 5), (6, 7, 8), (0, 3, 6), (1, 4, 7), (2, 5, 8),
      (0, 4, 8), (2, 4, 6)] ∧
    ∃ m : Mark,
      List.getD [some Mark.X, some Mark.X, some Mark.X, some Mark.O, some Mark.O,
        none, none, none, none] (lines.get ⟨0, by decide⟩).1 none = some m ∧
      calculateWinner [some Mark.X, some Mark.X, some Mark.X, some Mark.O, some Mark.O,
        none, none, none, none] = some (m, lines.get ⟨0, by decide⟩) :=
  calculateWinner_first_triple
    [some Mark.X, some Mark.X, some Mark.X, some Mark.O, some Mark.O,
      none, none, none, none] 0 (by decide) (by decide)
    (fun j hj hji => absurd hji (by omega))

theorem evaluateTerminal_no_line (b : Board) (h9 : b.length = 9)
    (hno : ∀ t ∈ lines, ¬ winningTripleSpec b t) :
    ((∀ i, i < 9 → b.getD i none ≠ none) → evaluateTerminal b = TerminalResult.draw) ∧
    ((∃ i, i < 9 ∧ b.getD i none = none) → evaluateTerminal b = TerminalResult.none) := by
  have hcw : calculateWinner b = none := by
    have hfind : lines.find? (fun t => lineWins b t) = none :=
      List.find?_eq_none.mpr (fun t ht => by
        cases hlw : lineWins b t
        · simp
        · exact absurd ((lineWins_iff _ _).mp hlw) (hno t ht))
    unfold calculateWinner
    rw [hfind]
  have hall : (b.all fun c => c.isSome) = true ↔ ∀ i, i < 9 → b.getD i none ≠ none := by
    rw [List.all_eq_true]
    constructor
    · intro h i hi
      have hil : i < b.length := by omega
      rw [List.getD_eq_getElem _ _ hil]
      have hs := h b[i] (List.getElem_mem hil)
      rw [Option.isSome_iff_ne_none] at hs
      exact hs
    · intro h c hc
      obtain ⟨i, hil, rfl⟩ := List.getElem_of_mem hc
      have hne := h i (by omega)
      rw [List.getD_eq_getElem _ _ hil] at hne
      rw [Option.isSome_iff_ne_none]
      exact hne
  unfold evaluateTerminal
  rw [hcw]
  constructor
  · intro hfull
    rw [if_pos (hall.mpr hfull)]
  · rintro ⟨i, hi, hempty⟩
    rw [if_neg]
    intro hfull
    exact (hall.mp hfull) i hi hempty

theorem evaluateTerminal_no_line_witness :
    evaluateTerminal [some Mark.X, some Mark.X, some Mark.O, some Mark.O, some Mark.O,
      some Mark.X, some Mark.X, some Mark.O, some Mark.X] = TerminalResult.draw :=
  (evaluateTerminal_no_line
    [some Mark.X, some Mark.X, some Mark.O, some Mark.O, some Mark.O,
      some Mark.X, some Mark.X, some Mark.O, some Mark.X] (by decide) (by decide)).1
    (by decide)

/-- Claim C3: with an active 9-cell board, clicking any index below 9 is a
complete no-op (same state returned, no fault) whenever the active board
is won or drawn, or the clicked cell is already occupied.  For a drawn
board the guard fires through the occupied-cell test, since a drawn board
has no empty cell. -/
theorem placeMark_noop (s : GameState) (b : Board) (index : Nat)
    (hb : currentSquares s = some b) (h9 : b.length = 9) (hidx : index < 9)
    (hblocked : evaluateTerminal b ≠ TerminalResult.none ∨ b.getD index none ≠ none) :
    handleSquareClick s index = some s := by
  have hcond : ((calculateWinner b).isSome || (b.getD index none).isSome) = true := by
    rcases hblocked with ht | hc
    · cases hcw : calculateWinner b with
      | some p => simp
      | none =>
        unfold evaluateTerminal at ht
        rw [hcw] at ht
        by_cases hall : (b.all fun c => c.isSome) = true
        · have hil : index < b.length := by omega
          have hcell : (b.getD index none).isSome = true := by
            rw [List.getD_eq_getElem _ _ hil]
            exact List.all_eq_true.mp hall _ (List.getElem_mem hil)
          simp only [Bool.or_eq_true]
          exact Or.inr hcell
        · rw [if_neg hall] at ht
          exact absurd rfl ht
    · simp only [Bool.or_eq_true, Option.isSome_iff_ne_none]
      exact Or.inr hc
  unfold handleSquareClick
  rw [hb]
  show (if (calculateWinner b).isSome || (b.getD index none).isSome then some s
    else some (handlePlay s (b.set index (some (if xIsNext s then Mark.X else Mark.O))))) =
    some s
  rw [if_pos hcond]

theorem placeMark_noop_witness :
    handleSquareClick
      ⟨[[some Mark.X, none, none, none, none, none, none, none, none]], 0⟩ 0 =
    some ⟨[[some Mark.X, none, none, none, none, none, none, none, none]], 0⟩ :=
  placeMark_noop _ [some Mark.X, none, none, none, none, none, none, none, none] 0
    (by decide) (by decide) (by decide) (Or.inr (by decide))

/-- Claim C7: `jumpTo` with an in-range move index sets `currentMove` to it
and leaves the history list completely unchanged. -/
theorem jumpTo_in_range (s : GameState) (move : Int)
    (h0 : 0 ≤ move) (hlt : move < (s.history.length : Int)) :
    (jumpTo s move).currentMove = move ∧ (jumpTo s move).history = s.history :=
  ⟨rfl, rfl⟩

theorem jumpTo_in_range_witness :
    (jumpTo initialState 0).currentMove = 0 ∧
    (jumpTo initialState 0).history = initialState.history :=
  jumpTo_in_range initialState 0 (by decide) (by decide)

/-- Claim C9: `resetGame`, from any state, restores the initial state: a
singleton history holding the all-empty board, and `currentMove = 0`. -/
theorem resetGame_restores_initial (s : GameState) :
    (resetGame s).history = [List.replicate 9 (none : Cell)] ∧
    (resetGame s).currentMove = 0 :=
  ⟨rfl, rfl⟩

/-- Claim C10: `jumpTo` performs no bounds check: any integer, in range or
not, is stored in `currentMove` with the history untouched, and after an
out-of-range jump the active board read `history[currentMove]` yields no
value (JS `undefined`). -/
theorem jumpTo_no_bounds_check (s : GameState) (m : Int) :
    (jumpTo s m).currentMove = m ∧ (jumpTo s m).history = s.history ∧
    ((m < 0 ∨ (s.history.length : Int) ≤ m) → currentSquares (jumpTo s m) = none) := by
  refine ⟨rfl, rfl, ?_⟩
  intro hm
  show jsGet s.history m = none
  unfold jsGet
  rcases hm with hneg | hge
  · rw [if_pos hneg]
  · rw [if_neg (by omega)]
    exact List.get?_eq_none.mpr (by omega)

theorem jumpTo_no_bounds_check_witness :
    (jumpTo initialState (-1)).currentMove = -1 ∧
    (jumpTo initialState (-1)).history = initialState.history ∧
    currentSquares (jumpTo initialState (-1)) = none :=
  ⟨(jumpTo_no_bounds_check initialState (-1)).1,
   (jumpTo_no_bounds_check initialState (-1)).2.1,
   (jumpTo_no_bounds_check initialState (-1)).2.2 (Or.inl (by decide))⟩

lemma currentSquares_some (s : GameState) (b : Board)
    (hb : currentSquares s = some b) :
    0 ≤ s.currentMove ∧ s.currentMove.toNat < s.history.length ∧
      s.history.get? s.currentMove.toNat = some b := by
  unfold currentSquares jsGet at hb
  by_cases hneg : s.currentMove < 0
  · rw [if_pos hneg] at hb
    exact Option.noConfusion hb
  · rw [if_neg hneg] at hb
    refine ⟨by omega, ?_, hb⟩
    have := List.get?_eq_some.mp hb
    exact this.1

lemma handleSquareClick_success (s : GameState) (b : Board) (index : Nat)
    (hb : currentSquares s = some b)
    (hw : calculateWinner b = none) (hc : b.getD index none = none) :
    handleSquareClick s index =
      some (handlePlay s (b.set index (some (if xIsNext s then Mark.X else Mark.O)))) := by
  unfold handleSquareClick
  rw [hb]
  show (if (calculateWinner b).isSome || (b.getD index none).isSome then some s
    else some (handlePlay s (b.set index (some (if xIsNext s then Mark.X else Mark.O))))) = _
  rw [if_neg (by intro hcontra; rw [hw, hc] at hcontra; simp at hcontra)]

lemma sliceTo_succ_toNat (s : GameState) (h0 : 0 ≤ s.currentMove) :
    sliceTo s.history (s.currentMove + 1) = s.history.take (s.currentMove.toNat + 1) := by
  unfold sliceTo
  rw [if_neg (by omega)]
  congr 1
  omega

/-- Claim C4: a successful click truncates the history to its first
`currentMove + 1` snapshots, appends the freshly written board, and sets
`currentMove` to the new last index; in particular from a 6-snapshot
history at `currentMove = 2` (after a jump) the result keeps snapshots
0..2 plus the new board, 4 snapshots in all. -/
theorem placeMark_truncates (s : GameState) (b : Board) (index : Nat)
    (hb : currentSquares s = some b)
    (hw : calculateWinner b = none) (hc : b.getD index none = none) :
    ∃ s', handleSquareClick s index = some s' ∧
      s'.history = s.history.take (s.currentMove.toNat + 1) ++
        [b.set index (some (if xIsNext s then Mark.X else Mark.O))] ∧
      s'.currentMove = (s'.history.length : Int) - 1 ∧
      (s.history.length = 6 ∧ s.currentMove = 2 →
        s'.history.length = 4 ∧
        s'.history = s.history.take 3 ++
          [b.set index (some (if xIsNext s then Mark.X else Mark.O))]) := by
  obtain ⟨h0, hlt, hget⟩ := currentSquares_some s b hb
  refine ⟨_, handleSquareClick_success s b index hb hw hc, ?_, rfl, ?_⟩
  · show sliceTo s.history (s.currentMove + 1) ++ _ = _
    rw [sliceTo_succ_toNat s h0]
  · rintro ⟨hlen6, hcm2⟩
    have hcm2n : s.currentMove.toNat = 2 := by omega
    constructor
    · show (sliceTo s.history (s.currentMove + 1) ++ _).length = 4
      rw [sliceTo_succ_toNat s h0, List.length_append, List.length_take, hcm2n, hlen6,
        List.length_singleton]
      omega
    · show sliceTo s.history (s.currentMove + 1) ++ _ = _
      rw [sliceTo_succ_toNat s h0, hcm2n]

theorem placeMark_truncates_witness :
    ∃ s', handleSquareClick
        ⟨[List.replicate 9 none, List.replicate 9 none, List.replicate 9 none,
          List.replicate 9 none, List.replicate 9 none, List.replicate 9 none], 2⟩ 0 =
        some s' ∧
      s'.history =
        (⟨[List.replicate 9 none, List.replicate 9 none, List.replicate 9 none,
           List.replicate 9 none, List.replicate 9 none, List.replicate 9 none], 2⟩ :
           GameState).history.take ((2 : Int).toNat + 1) ++
        [List.set (List.replicate 9 none) 0
          (some (if xIsNext ⟨[List.replicate 9 none, List.replicate 9 none,
            List.replicate 9 none, List.replicate 9 none, List.replicate 9 none,
            List.replicate 9 none], 2⟩ then Mark.X else Mark.O))] ∧
      s'.currentMove = (s'.history.length : Int) - 1 ∧
      ((⟨[List.replicate 9 none, List.replicate 9 none, List.replicate 9 none,
          List.replicate 9 none, List.replicate 9 none, List.replicate 9 none], 2⟩ :
          GameState).history.length = 6 ∧
        (⟨[List.replicate 9 none, List.replicate 9 none, List.replicate 9 none,
           List.replicate 9 none, List.replicate 9 none, List.replicate 9 none], 2⟩ :
           GameState).currentMove = 2 →
        s'.history.length = 4 ∧
        s'.history =
          (⟨[List.replicate 9 none, List.replicate 9 none, List.replicate 9 none,
             List.replicate 9 none, List.replicate 9 none, List.replicate 9 none], 2⟩ :
             GameState).history.take 3 ++
          [List.set (List.replicate 9 none) 0
            (some (if xIsNext ⟨[List.replicate 9 none, List.replicate 9 none,
              List.replicate 9 none, List.replicate 9 none, List.replicate 9 none,
              List.replicate 9 none], 2⟩ then Mark.X else Mark.O))]) :=
  placeMark_truncates
    ⟨[List.replicate 9 none, List.replicate 9 none, List.replicate 9 none,
      List.replicate 9 none, List.replicate 9 none, List.replicate 9 none], 2⟩
    (List.replicate 9 none) 0 (by decide) (by decide) (by decide)

lemma calculateWinner_eq_none_of_terminal_none (b : Board)
    (hnone : evaluateTerminal b = TerminalResult.none) :
    calculateWinner b = none := by
  cases hcw : calculateWinner b with
  | none => rfl
  | some p =>
    obtain ⟨mm, t⟩ := p
    unfold evaluateTerminal at hnone
    rw [hcw] at hnone
    simp at hnone

/-- Claim C6: the terminal status is derived from the active board alone,
recomputed on every read (it is definitionally `evaluateTerminal` of
`history[currentMove]`, never cached); in particular after a jump to a
snapshot whose board has no completed line the status is None, and a
click on any empty cell is effective again, appending a new snapshot with
that cell written. -/
theorem terminal_status_derived (s : GameState) (m : Int) (b : Board) (index : Nat)
    (hb : currentSquares (jumpTo s m) = some b)
    (hnone : evaluateTerminal b = TerminalResult.none)
    (hc : b.getD index none = none) :
    (∀ t : GameState, terminalStatus t = (currentSquares t).map evaluateTerminal) ∧
    terminalStatus (jumpTo s m) = some TerminalResult.none ∧
    ∃ s', handleSquareClick (jumpTo s m) index = some s' ∧
      s'.history.length = m.toNat + 2 ∧
      s'.history.getD (m.toNat + 1) [] =
        b.set index (some (if xIsNext (jumpTo s m) then Mark.X else Mark.O)) := by
  have hw : calculateWinner b = none := calculateWinner_eq_none_of_terminal_none b hnone
  obtain ⟨h0, hlt, hget⟩ := currentSquares_some (jumpTo s m) b hb
  have h0m : 0 ≤ m := h0
  have hltm : m.toNat < s.history.length := hlt
  have hsl : sliceTo s.history (m + 1) = s.history.take (m.toNat + 1) :=
    sliceTo_succ_toNat (jumpTo s m) h0
  have htl : (s.history.take (m.toNat + 1)).length = m.toNat + 1 := by
    rw [List.length_take]
    omega
  refine ⟨fun t => rfl, ?_, ?_⟩
  · unfold terminalStatus
    rw [hb]
    show some (evaluateTerminal b) = some TerminalResult.none
    rw [hnone]
  · refine ⟨_, handleSquareClick_success (jumpTo s m) b index hb hw hc, ?_, ?_⟩
    · show (sliceTo s.history (m + 1) ++ _).length = m.toNat + 2
      rw [hsl, List.length_append, htl, List.length_singleton]
    · show (sliceTo s.history (m + 1) ++ _).getD (m.toNat + 1) [] = _
      rw [hsl, List.getD_append_right _ _ _ _ (by omega), htl]
      simp

theorem terminal_status_derived_witness :
    (∀ t : GameState, terminalStatus t = (currentSquares t).map evaluateTerminal) ∧
    terminalStatus (jumpTo ⟨[List.replicate 9 none,
      [some Mark.X, none, none, none, none, none, none, none, none]], 1⟩ 0) =
      some TerminalResult.none ∧
    ∃ s', handleSquareClick (jumpTo ⟨[List.replicate 9 none,
        [some Mark.X, none, none, none, none, none, none, none, none]], 1⟩ 0) 4 =
        some s' ∧
      s'.history.length = (0 : Int).toNat + 2 ∧
      s'.history.getD ((0 : Int).toNat + 1) [] =
        List.set (List.replicate 9 none) 4
          (some (if xIsNext (jumpTo ⟨[List.replicate 9 none,
            [some Mark.X, none, none, none, none, none, none, none, none]], 1⟩ 0)
            then Mark.X else Mark.O)) :=
  terminal_status_derived
    ⟨[List.replicate 9 none,
      [some Mark.X, none, none, none, none, none, none, none, none]], 1⟩ 0
    (List.replicate 9 none) 4 (by decide) (by decide) (by decide)

/-- One history step of the spec data model: the later snapshot differs
from the earlier one in at most one cell, that cell changing from Empty
to a mark. -/
def DiffersByOneMove (prev cur : Board) : Prop :=
  cur = prev ∨ ∃ i m, i < 9 ∧ prev.getD i none = none ∧ cur = prev.set i (some m)

/-- The History invariant of the spec data model: the history is
non-empty, snapshot 0 is the all-empty 9-cell board, every snapshot has
exactly 9 cells, and each later snapshot differs from its predecessor by
at most one new mark. -/
def HistoryInv (h : List Board) : Prop :=
  0 < h.length ∧
  h.getD 0 [] = List.replicate 9 none ∧
  (∀ b ∈ h, b.length = 9) ∧
  ∀ n, 0 < n → n < h.length → DiffersByOneMove (h.getD (n - 1) []) (h.getD n [])

lemma getD_take_of_lt (l : List Board) (t n : Nat) (hn : n < t) :
    (l.take t).getD n [] = l.getD n [] := by
  show ((l.take t).get? n).getD [] = (l.get? n).getD []
  rw [List.get?_take hn]

lemma HistoryInv_initial : HistoryInv initialState.history := by
  refine ⟨by decide, rfl, ?_, ?_⟩
  · intro b hb
    rw [show initialState.history = [List.replicate 9 none] from rfl,
      List.mem_singleton] at hb
    rw [hb, List.length_replicate]
  · intro n hn hlt
    simp only [initialState, List.length_singleton] at hlt
    omega

lemma handleSquareClick_cases (s : GameState) (b : Board) (index : Nat)
    (hb : currentSquares s = some b) :
    handleSquareClick s index = some s ∨
    (calculateWinner b = none ∧ b.getD index none = none ∧
      handleSquareClick s index =
        some (handlePlay s (b.set index (some (if xIsNext s then Mark.X else Mark.O))))) := by
  by_cases hguard : ((calculateWinner b).isSome || (b.getD index none).isSome) = true
  · left
    unfold handleSquareClick
    rw [hb]
    show (if (calculateWinner b).isSome || (b.getD index none).isSome then some s
      else some (handlePlay s (b.set index (some (if xIsNext s then Mark.X else Mark.O))))) =
      some s
    rw [if_pos hguard]
  · right
    simp only [Bool.or_eq_true, not_or, Bool.not_eq_true, Option.not_isSome,
      Option.isNone_iff_eq_none] at hguard
    obtain ⟨hw, hc⟩ := hguard
    exact ⟨hw, hc, handleSquareClick_success s b index hb hw hc⟩

lemma click_preserves_HistoryInv (s : GameState) (index : Nat) (s' : GameState)
    (hidx : index < 9) (hinv : HistoryInv s.history)
    (hclick : handleSquareClick s index = some s') :
    HistoryInv s'.history := by
  cases hb : currentSquares s with
  | none =>
    unfold handleSquareClick at hclick
    rw [hb] at hclick
    exact Option.noConfusion hclick
  | some b =>
    obtain ⟨h0, hlt, hget⟩ := currentSquares_some s b hb
    rcases handleSquareClick_cases s b index hb with hcase | ⟨hw, hc, hcase⟩
    · rw [hcase] at hclick
      cases hclick
      exact hinv
    · rw [hcase] at hclick
      cases hclick
      show HistoryInv (handlePlay s _).history
      obtain ⟨hpos, hzero, hlen9, hdiff⟩ := hinv
      have hsl : sliceTo s.history (s.currentMove + 1) =
          s.history.take (s.currentMove.toNat + 1) := sliceTo_succ_toNat s h0
      show HistoryInv (sliceTo s.history (s.currentMove + 1) ++ [_])
      rw [hsl]
      have htle : s.currentMove.toNat + 1 ≤ s.history.length := by omega
      have htl : (s.history.take (s.currentMove.toNat + 1)).length =
          s.currentMove.toNat + 1 := by
        rw [List.length_take]
        omega
      have hbmem : b ∈ s.history := List.get?_mem hget
      have hgetb : s.history.getD s.currentMove.toNat [] = b := by
        show (s.history.get? s.currentMove.toNat).getD [] = b
        rw [hget]
        rfl
      refine ⟨?_, ?_, ?_, ?_⟩
      · rw [List.length_append, htl]
        omega
      · rw [List.getD_append _ _ _ _ (by omega), getD_take_of_lt _ _ _ (by omega)]
        exact hzero
      · intro b' hb'
        rw [List.mem_append] at hb'
        rcases hb' with hb' | hb'
        · exact hlen9 b' (List.take_subset _ _ hb')
        · rw [List.mem_singleton] at hb'
          rw [hb', List.length_set]
          exact hlen9 b hbmem
      · intro n hn hnlt
        rw [List.length_append, htl, List.length_singleton] at hnlt
        by_cases hcase2 : n < s.currentMove.toNat + 1
        · rw [List.getD_append _ _ _ _ (by omega), List.getD_append _ _ _ _ (by omega),
            getD_take_of_lt _ _ _ (by omega), getD_take_of_lt _ _ _ hcase2]
          exact hdiff n hn (by omega)
        · have hn' : n = s.currentMove.toNat + 1 := by omega
          rw [hn', List.getD_append _ _ _ _ (by omega),
            List.getD_append_right _ _ _ _ (by rw [htl]),
            getD_take_of_lt _ _ _ (by omega), htl, Nat.add_sub_cancel, Nat.sub_self,
            hgetb]
          exact Or.inr ⟨index, (if xIsNext s then Mark.X else Mark.O), hidx, hc, rfl⟩

/-- Claim C8: every operation — a square click (PlaceMark), a jump
(JumpTo), and a reset — preserves the History invariant: snapshot 0 is
the all-empty 9-cell board, every snapshot has exactly 9 cells, and each
snapshot past the first differs from its predecessor in at most one cell,
that cell changing from Empty to a mark. -/
theorem ops_preserve_HistoryInv (s : GameState) (hinv : HistoryInv s.history) :
    (∀ (index : Nat) (s' : GameState), index < 9 →
      handleSquareClick s index = some s' → HistoryInv s'.history) ∧
    (∀ m : Int, HistoryInv (jumpTo s m).history) ∧
    HistoryInv (resetGame s).history :=
  ⟨fun index s' hidx hclick => click_preserves_HistoryInv s index s' hidx hinv hclick,
   fun _ => hinv,
   HistoryInv_initial⟩

theorem ops_preserve_HistoryInv_witness :
    HistoryInv (resetGame initialState).history :=
  (ops_preserve_HistoryInv initialState HistoryInv_initial).2.2

/-- The appended snapshot at position `k` of the history was produced by
writing mark `m` at cell `i` of its predecessor. -/
def AppendStep (prev cur : Board) (i : Nat) (m : Mark) : Prop :=
  i < 9 ∧ prev.getD i none = none ∧ cur = prev.set i (some m)

/-- Invariant of jump-free play: `currentMove` tracks the last history
index, and every appended snapshot was written with the mark dictated by
the parity of its index. -/
def TurnInv (s : GameState) : Prop :=
  0 < s.history.length ∧
  s.currentMove = (s.history.length : Int) - 1 ∧
  ∀ k, 0 < k → k < s.history.length →
    ∃ i m, AppendStep (s.history.getD (k - 1) []) (s.history.getD k []) i m ∧
      (m = Mark.X ↔ k % 2 = 1)

lemma TurnInv_initial : TurnInv initialState := by
  refine ⟨by decide, by decide, ?_⟩
  intro k hk hlt
  simp only [initialState, List.length_singleton] at hlt
  omega

lemma click_preserves_TurnInv (s : GameState) (index : Nat) (s' : GameState)
    (hidx : index < 9) (hinv : TurnInv s)
    (hclick : handleSquareClick s index = some s') : TurnInv s' := by
  obtain ⟨hpos, hcm, hpar⟩ := hinv
  cases hb : currentSquares s with
  | none =>
    unfold handleSquareClick at hclick
    rw [hb] at hclick
    exact Option.noConfusion hclick
  | some b =>
    obtain ⟨h0, hlt, hget⟩ := currentSquares_some s b hb
    rcases handleSquareClick_cases s b index hb with hcase | ⟨hw, hc, hcase⟩
    · rw [hcase] at hclick
      cases hclick
      exact ⟨hpos, hcm, hpar⟩
    · rw [hcase] at hclick
      cases hclick
      have hcmn : s.currentMove.toNat = s.history.length - 1 := by omega
      have hsl : sliceTo s.history (s.currentMove + 1) = s.history := by
        rw [sliceTo_succ_toNat s h0, hcmn]
        exact List.take_of_length_le (by omega)
      show TurnInv (handlePlay s _)
      set nb := b.set index (some (if xIsNext s then Mark.X else Mark.O)) with hnb
      have hplay : handlePlay s nb =
          ⟨s.history ++ [nb], ((s.history ++ [nb]).length : Int) - 1⟩ := by
        unfold handlePlay
        rw [hsl]
      rw [hplay]
      have hgetb : s.history.getD (s.history.length - 1) [] = b := by
        show (s.history.get? (s.history.length - 1)).getD [] = b
        rw [← hcmn, hget]
        rfl
      refine ⟨?_, rfl, ?_⟩
      · rw [List.length_append, List.length_singleton]
        omega
      · intro k hk hklt
        rw [List.length_append, List.length_singleton] at hklt
        by_cases hkold : k < s.history.length
        · obtain ⟨i, m, hstep, hparm⟩ := hpar k hk hkold
          refine ⟨i, m, ?_, hparm⟩
          rwa [List.getD_append _ _ _ _ (by omega), List.getD_append _ _ _ _ (by omega)]
        · have hkeq : k = s.history.length := by omega
          refine ⟨index, (if xIsNext s then Mark.X else Mark.O), ?_, ?_⟩
          · rw [hkeq, List.getD_append _ _ _ _ (by omega),
              List.getD_append_right _ _ _ _ (by omega), Nat.sub_self, hgetb]
            exact ⟨hidx, hc, rfl⟩
          · have hx : xIsNext s = true ↔ s.currentMove % 2 = 0 := by
              unfold xIsNext
              exact beq_iff_eq
            have hpar2 : s.currentMove % 2 = 0 ↔ k % 2 = 1 := by
              rw [hcm, hkeq]
              omega
            by_cases hxv : xIsNext s = true
            · rw [if_pos hxv]
              constructor
              · intro _
                exact hpar2.mp (hx.mp hxv)
              · intro _
                rfl
            · rw [if_neg hxv]
              constructor
              · intro hcontra
                exact absurd hcontra (by decide)
              · intro hk1
                exact absurd (hx.mpr (hpar2.mpr hk1)) hxv

lemma foldl_click_none (l : List Nat) :
    l.foldl (fun acc i => acc.bind fun t => handleSquareClick t i) none = none := by
  induction l with
  | nil => rfl
  | cons a tl ih =>
    rw [List.foldl_cons]
    exact ih

lemma playFrom_TurnInv (moves : List Nat) :
    ∀ s0 : GameState, TurnInv s0 → (∀ i ∈ moves, i < 9) →
      ∀ s : GameState,
        moves.foldl (fun acc i => acc.bind fun t => handleSquareClick t i) (some s0) =
          some s →
        TurnInv s := by
  induction moves with
  | nil =>
    intro s0 h0 _ s hs
    rw [List.foldl_nil] at hs
    cases hs
    exact h0
  | cons a tl ih =>
    intro s0 h0 hall s hs
    rw [List.foldl_cons] at hs
    cases hc1 : handleSquareClick s0 a with
    | none =>
      rw [show (some s0).bind (fun t => handleSquareClick t a) = none by
        rw [Option.some_bind, hc1]] at hs
      rw [foldl_click_none] at hs
      exact Option.noConfusion hs
    | some s1 =>
      rw [show (some s0).bind (fun t => handleSquareClick t a) = some s1 by
        rw [Option.some_bind, hc1]] at hs
      exact ih s1
        (click_preserves_TurnInv s0 a s1 (hall a (List.mem_cons_self a tl)) h0 hc1)
        (fun i hi => hall i (List.mem_cons_of_mem a hi)) s hs

/-- Claim C5: the turn is X (MarkA) exactly when `currentMove` is even,
and in any jump-free run from the initial state the mark written into the
k-th appended snapshot (1-indexed) is X when k is odd and O when k is
even. -/
theorem turn_parity :
    (∀ s : GameState, xIsNext s = true ↔ s.currentMove % 2 = 0) ∧
    (∀ (moves : List Nat) (s : GameState), (∀ i ∈ moves, i < 9) →
      playAll moves = some s →
      ∀ k, 0 < k → k < s.history.length →
        ∃ i m, AppendStep (s.history.getD (k - 1) []) (s.history.getD k []) i m ∧
          (m = Mark.X ↔ k % 2 = 1)) := by
  constructor
  · intro s
    unfold xIsNext
    exact beq_iff_eq
  · intro moves s hall hplays
    exact (playFrom_TurnInv moves initialState TurnInv_initial hall s hplays).2.2

theorem turn_parity_witness :
    ∃ i m,
      AppendStep
        (([List.replicate 9 none,
           [some Mark.X, none, none, none, none, none, none, none, none],
           [some Mark.X, none, none, none, some Mark.O, none, none, none, none]] :
          List Board).getD (2 - 1) [])
        (([List.replicate 9 none,
           [some Mark.X, none, none, none, none, none, none, none, none],
           [some Mark.X, none, none, none, some Mark.O, none, none, none, none]] :
          List Board).getD 2 []) i m ∧
      (m = Mark.X ↔ 2 % 2 = 1) :=
  turn_parity.2 [0, 4]
    ⟨[List.replicate 9 none,
      [some Mark.X, none, none, none, none, none, none, none, none],
      [some Mark.X, none, none, none, some Mark.O, none, none, none, none]], 2⟩
    (by decide) (by decide) 2 (by decide) (by decide)
